import Mathlib

/-!
Verification of the transaction ingestion and classification engine of the
bankJBDY repository: the row fingerprint (`FinanceService._calculate_hash`,
`database._calculate_hash`, `insert_transactions`), the two CSV preprocessors
(`logic.preprocess_data` and `FinanceService._preprocess_dataframe`), the rule
categorizer (`FinanceService._categorize_transactions`, `recategorize_all`),
the recurrence detector (`FinanceService._detect_recurrences`,
`logic.detect_recurrences`) and the insight detectors
(`InsightsService.find_large_purchases`, `InsightsService.find_bank_fees`).

Python strings are modelled as Lean `String`, floats/decimals as `ℚ`,
pandas `NaN`/`NaT` as `Option.none`, and dataframes as `List` of records.
-/

namespace Bank

/-! ## SHA-256

Faithful implementation of SHA-256 over a byte list, used by
`calculate_hash` below exactly as `hashlib.sha256(...).hexdigest()` is used
by `FinanceService._calculate_hash`.  32-bit machine words are `Nat` values
kept below `2 ^ 32` by explicit reduction. -/

def m32 (x : Nat) : Nat := x % 2 ^ 32

def rotr (n x : Nat) : Nat := m32 ((x >>> n) ||| (x <<< (32 - n)))

def bsig0 (x : Nat) : Nat := rotr 2 x ^^^ rotr 13 x ^^^ rotr 22 x

def bsig1 (x : Nat) : Nat := rotr 6 x ^^^ rotr 11 x ^^^ rotr 25 x

def ssig0 (x : Nat) : Nat := rotr 7 x ^^^ rotr 18 x ^^^ (x >>> 3)

def ssig1 (x : Nat) : Nat := rotr 17 x ^^^ rotr 19 x ^^^ (x >>> 10)

def chFn (e f g : Nat) : Nat := (e &&& f) ^^^ ((e ^^^ 0xffffffff) &&& g)

def majFn (a b c : Nat) : Nat := (a &&& b) ^^^ (a &&& c) ^^^ (b &&& c)

def roundK : Array Nat := #[
  1116352408, 1899447441, 3049323471, 3921009573, 961987163, 1508970993,
  2453635748, 2870763221, 3624381080, 310598401, 607225278, 1426881987,
  1925078388, 2162078206, 2614888103, 3248222580, 3835390401, 4022224774,
  264347078, 604807628, 770255983, 1249150122, 1555081692, 1996064986,
  2554220882, 2821834349, 2952996808, 3210313671, 3336571891, 3584528711,
  113926993, 338241895, 666307205, 773529912, 1294757372, 1396182291,
  1695183700, 1986661051, 2177026350, 2456956037, 2730485921, 2820302411,
  3259730800, 3345764771, 3516065817, 3600352804, 4094571909, 275423344,
  430227734, 506948616, 659060556, 883997877, 958139571, 1322822218,
  1537002063, 1747873779, 1955562222, 2024104815, 2227730452, 2361852424,
  2428436474, 2756734187, 3204031479, 3329325298]

def initH : Array Nat := #[
  1779033703, 3144134277, 1013904242, 2773480762,
  1359893119, 2600822924, 528734635, 1541459225]

/-- Append the `0x80` byte, the zero padding and the 8-byte big-endian bit
length, so that the padded message length is a multiple of 64 bytes. -/
def padMessage (msg : List Nat) : List Nat :=
  let padLen := (119 - msg.length % 64) % 64
  let bitLen := 8 * msg.length
  msg ++ [0x80] ++ List.replicate padLen 0 ++
    (List.range 8).map (fun i => (bitLen >>> (8 * (7 - i))) % 256)

/-- Split a byte list into 64-byte chunks; the fuel argument (instantiated
with the list length, an upper bound on the chunk count) makes the recursion
structural so that the definition reduces inside the kernel. -/
def chunksGo : Nat → List Nat → List (List Nat)
  | 0, _ => []
  | _, [] => []
  | fuel + 1, l => l.take 64 :: chunksGo fuel (l.drop 64)

/-- Split a byte list into 64-byte chunks. -/
def chunks64 (l : List Nat) : List (List Nat) := chunksGo l.length l

/-- The 16 initial 32-bit big-endian message-schedule words of a chunk. -/
def chunkWords (chunk : List Nat) : Array Nat :=
  ((List.range 16).map (fun i =>
    chunk.getD (4 * i) 0 * 0x1000000 + chunk.getD (4 * i + 1) 0 * 0x10000 +
      chunk.getD (4 * i + 2) 0 * 0x100 + chunk.getD (4 * i + 3) 0)).toArray

/-- Extend the 16 chunk words to the 64-entry message schedule. -/
def schedule (chunk : List Nat) : Array Nat :=
  (List.range 48).foldl (fun w _ =>
    let n := w.size
    w.push (m32 (ssig1 (w.getD (n - 2) 0) + w.getD (n - 7) 0 +
      ssig0 (w.getD (n - 15) 0) + w.getD (n - 16) 0)))
    (chunkWords chunk)

/-- One SHA-256 compression step over a 64-byte chunk. -/
def compress (hs : Array Nat) (chunk : List Nat) : Array Nat :=
  let w := schedule chunk
  let s := (List.range 64).foldl (fun (s : Array Nat) i =>
    let a := s.getD 0 0
    let b := s.getD 1 0
    let c := s.getD 2 0
    let d := s.getD 3 0
    let e := s.getD 4 0
    let f := s.getD 5 0
    let g := s.getD 6 0
    let t1 := m32 (s.getD 7 0 + bsig1 e + chFn e f g + roundK.getD i 0 + w.getD i 0)
    let t2 := m32 (bsig0 a + majFn a b c)
    #[m32 (t1 + t2), a, b, c, m32 (d + t1), e, f, g]) hs
  #[m32 (hs.getD 0 0 + s.getD 0 0), m32 (hs.getD 1 0 + s.getD 1 0),
    m32 (hs.getD 2 0 + s.getD 2 0), m32 (hs.getD 3 0 + s.getD 3 0),
    m32 (hs.getD 4 0 + s.getD 4 0), m32 (hs.getD 5 0 + s.getD 5 0),
    m32 (hs.getD 6 0 + s.getD 6 0), m32 (hs.getD 7 0 + s.getD 7 0)]

def hexChar (n : Nat) : Char := if n < 10 then Char.ofNat (48 + n) else Char.ofNat (87 + n)

def wordHex (x : Nat) : List Char := (List.range 8).map (fun i => hexChar ((x >>> (4 * (7 - i))) % 16))

/-- The SHA-256 hex digest of a byte list, as `hashlib.sha256(b).hexdigest()`. -/
def sha256Hex (msg : List Nat) : String :=
  ⟨((chunks64 (padMessage msg)).foldl compress initH).toList.foldr
    (fun x acc => wordHex x ++ acc) []⟩

/-- UTF-8 encoding of one character, as Python's `str.encode('utf-8')` does. -/
def utf8Char (c : Char) : List Nat :=
  let n := c.toNat
  if n < 0x80 then [n]
  else if n < 0x800 then [0xc0 + n / 0x40, 0x80 + n % 0x40]
  else if n < 0x10000 then [0xe0 + n / 0x1000, 0x80 + n / 0x40 % 0x40, 0x80 + n % 0x40]
  else [0xf0 + n / 0x40000, 0x80 + n / 0x1000 % 0x40, 0x80 + n / 0x40 % 0x40, 0x80 + n % 0x40]

/-- UTF-8 byte encoding of a string. -/
def strBytes (s : String) : List Nat := s.data.foldr (fun c acc => utf8Char c ++ acc) []

/-! ## Fingerprint (`FinanceService._calculate_hash` / `database._calculate_hash`)

A statement row is modelled by the string values that `str(row.get(...))`
yields for the hashed fields, plus further fields (normalised label,
pre-existing category) standing for the columns the hash does not read. -/

structure StmtRow where
  date_operation : String
  libelle_operation : String
  montant : String
  libelle_simplifie : String
  categorie : String
deriving DecidableEq

/-- `_calculate_hash`: SHA-256 hex digest of the concatenation of
`str(date_operation)`, `str(libelle_operation)`, `str(montant)` and
`str(account_type)` (`"".join(base_string).encode('utf-8')`). -/
def calculate_hash (row : StmtRow) (account_type : String) : String :=
  sha256Hex (strBytes
    (row.date_operation ++ row.libelle_operation ++ row.montant ++ account_type))

/-- `insert_transactions` / `TransactionRepository.add_many`: the ledger is a
set of fingerprints (the `hash TEXT PRIMARY KEY` column); `INSERT OR IGNORE`
inserts a row only when its fingerprint is new, and the return value counts
the newly inserted rows. -/
def insert_transactions (db : List String) (rows : List StmtRow)
    (account_type : String) : List String × Nat :=
  match rows with
  | [] => (db, 0)
  | r :: rest =>
    let h := calculate_hash r account_type
    if h ∈ db then insert_transactions db rest account_type
    else
      let step := insert_transactions (db ++ [h]) rest account_type
      (step.1, step.2 + 1)

/-! ## Debit/credit coercion and the two preprocessors
(`logic.preprocess_data` vs `FinanceService._preprocess_dataframe`)

Both paths parse the raw `Debit`/`Credit` cells identically (comma decimal
separator replaced by a dot, a leading `+` stripped from credits,
unparsable values coerced to 0) and then combine them into the signed
`montant` — one by subtraction, the other by addition. -/

/-- Split a character list at every `'.'`, as `str.split('.')` would. -/
def splitOnDot : List Char → List (List Char)
  | [] => [[]]
  | c :: rest =>
    if c = '.' then [] :: splitOnDot rest
    else
      match splitOnDot rest with
      | [] => [[c]]
      | g :: gs => (c :: g) :: gs

def natOfDigits (cs : List Char) : Nat :=
  cs.foldl (fun a c => 10 * a + (c.toNat - 48)) 0

/-- `pd.to_numeric(s, errors='coerce')` on a plain decimal string: an
optional sign, then digits with at most one decimal point and at least one
digit overall; anything else coerces to `none` (NaN). -/
def to_numeric (s : String) : Option ℚ :=
  let sb : ℚ × List Char :=
    match s.data with
    | '-' :: rest => (-1, rest)
    | '+' :: rest => (1, rest)
    | cs => (1, cs)
  match splitOnDot sb.2 with
  | [ip] =>
    if ip ≠ [] ∧ ip.all Char.isDigit then some (sb.1 * natOfDigits ip) else none
  | [ip, fp] =>
    if (ip ≠ [] ∨ fp ≠ []) ∧ ip.all Char.isDigit ∧ fp.all Char.isDigit then
      some (sb.1 * (natOfDigits ip + (natOfDigits fp : ℚ) / 10 ^ fp.length))
    else none
  | _ => none

/-- `str.replace(a, b)` for one-character patterns. -/
def replaceChar (a b : Char) (s : String) : String :=
  ⟨s.data.map (fun c => if c = a then b else c)⟩

/-- `str.replace(a, '')` for a one-character pattern. -/
def removeChar (a : Char) (s : String) : String :=
  ⟨s.data.filter (fun c => c ≠ a)⟩

/-- The debit/credit cells of one raw CSV row; `none` models a missing
`Debit`/`Credit` column (or a NaN cell, which both paths also coerce to 0). -/
structure AmountRow where
  debit : Option String
  credit : Option String

/-- Shared by both preprocessors:
`pd.to_numeric(col.astype(str).str.replace(',', '.'), errors='coerce').fillna(0)`. -/
def parsed_debit (r : AmountRow) : ℚ :=
  match r.debit with
  | none => 0
  | some s => (to_numeric (replaceChar ',' '.' s)).getD 0

/-- Shared by both preprocessors; credits additionally have `'+'` removed
(`.str.replace('+', '', regex=False)`). -/
def parsed_credit (r : AmountRow) : ℚ :=
  match r.credit with
  | none => 0
  | some s => (to_numeric (removeChar '+' (replaceChar ',' '.' s))).getD 0

/-- `logic.preprocess_data`, line 39: `montant = Credit - Debit`. -/
def preprocess_data_montant (r : AmountRow) : ℚ :=
  parsed_credit r - parsed_debit r

/-- `FinanceService._preprocess_dataframe`, line 47: `montant = credit + debit`. -/
def preprocess_dataframe_montant (r : AmountRow) : ℚ :=
  parsed_credit r + parsed_debit r

/-! ## Processed rows and the rule categorizer
(`FinanceService._categorize_transactions`)

A processed row carries the columns the categorizer, the recurrence
detector and the insight detectors read (the service layer's canonical
names; `date_operation`/`date_op` is the parsed operation date as a day
number, `none` for NaT; `categorie = none` models a NaN cell). -/

structure Row where
  hash : String
  libelle_operation : String
  libelle_simplifie : String
  montant : ℚ
  date_operation : Option ℤ
  categorie : Option String
  type_budget : String
deriving DecidableEq, Inhabited

/-- `CategoryRepository.get_rules()`: an ordered mapping from category name
to its keyword list (dict insertion order). -/
abbrev Rules := List (String × List String)

/-- Substring test on character lists. -/
def isSubstring : List Char → List Char → Bool
  | needle, [] => needle.isEmpty
  | needle, c :: t => needle.isPrefixOf (c :: t) || isSubstring needle t

/-- `Series.str.contains(keyword, case=False, na=False)`: case-insensitive
literal substring test (the rule keywords contain no regex metacharacters,
and `Char.toLower` agrees with `str.lower` on them). -/
def containsCI (hay needle : String) : Bool :=
  isSubstring (needle.data.map Char.toLower) (hay.data.map Char.toLower)

/-- `df['categorie'] = df['categorie'].fillna('')`. -/
def fillNa (r : Row) : Row := { r with categorie := some (r.categorie.getD "") }

/-- One row's candidate-mask bit, captured once before the rule loop runs:
every row in force mode, otherwise the rows whose (NaN-filled) category is
empty (`categorization_mask = (df['categorie'] == '')`). -/
def candidate (force : Bool) (r : Row) : Bool :=
  force || (r.categorie.getD "" == "")

/-- Effect of one keyword of one category on one masked row
(`df.loc[categorization_mask & keyword_mask, 'categorie'] = category`). -/
def rowKeywordStep (category keyword : String) (p : Row × Bool) : Row × Bool :=
  if p.2 && containsCI p.1.libelle_operation keyword then
    ({ p.1 with categorie := some category }, p.2)
  else p

/-- One keyword step of the rule loop over the whole (masked) table. -/
def keywordStep (category keyword : String) (l : List (Row × Bool)) : List (Row × Bool) :=
  l.map (rowKeywordStep category keyword)

/-- `FinanceService._categorize_transactions`: fill NaN categories, compute
the candidate mask once, then for each category in rule iteration order and
each of its keywords set the category of every masked row whose raw label
contains the keyword. -/
def categorize_transactions (rules : Rules) (force : Bool) (rows : List Row) : List Row :=
  (rules.foldl (fun l ck => ck.2.foldl (fun l kw => keywordStep ck.1 kw l) l)
    (rows.map (fun r => ((fillNa r), candidate force (fillNa r))))).map Prod.fst

/-- The whole rule loop acting on a single masked row. -/
def rowApplyRules (rules : Rules) (p : Row × Bool) : Row × Bool :=
  rules.foldl (fun p ck => ck.2.foldl (fun p kw => rowKeywordStep ck.1 kw p) p) p

/-- Does some keyword of the rule match the label? -/
def ruleMatches (label : String) (ck : String × List String) : Bool :=
  ck.2.any (fun kw => containsCI label kw)

/-- The category of the last rule (in iteration order) matching the label. -/
def lastMatch (rules : Rules) (label : String) : Option String :=
  rules.foldl (fun acc ck => if ruleMatches label ck then some ck.1 else acc) none

/-- All categories whose keyword lists match the label, in iteration order. -/
def matchingCategories (rules : Rules) (label : String) : List String :=
  (rules.filter (fun ck => ruleMatches label ck)).map Prod.fst

/-- Agreement on every field except the category. -/
def sameExceptCategorie (r s : Row) : Prop :=
  r.hash = s.hash ∧ r.libelle_operation = s.libelle_operation ∧
    r.libelle_simplifie = s.libelle_simplifie ∧ r.montant = s.montant ∧
    r.date_operation = s.date_operation ∧ r.type_budget = s.type_budget

/-- The category a force-mode sweep assigns to a row: the last matching
category, or the (NaN-filled) prior category when no rule matches. -/
def force_category (rules : Rules) (r : Row) : String :=
  match lastMatch rules r.libelle_operation with
  | some c => c
  | none => r.categorie.getD ""

/-- `FinanceService.recategorize_all`: record the old categories, run a
force-mode sweep, and return the (hash, new category) pairs where the new
value differs from the old (`changed = new_categories[new_categories !=
old_categories]`; the final `to_dict().items()` is the identity on this
pair list whenever hashes are unique, which the ledger's `hash TEXT PRIMARY
KEY` guarantees). -/
def recategorize_all (rules : Rules) (txs : List Row) : List (String × String) :=
  (txs.zip (categorize_transactions rules true txs)).filterMap (fun p =>
    if p.2.categorie ≠ p.1.categorie then some (p.1.hash, p.2.categorie.getD "") else none)

/-- Application of the returned diff through the repository's
`update_category(hash, new_category)` calls. -/
def apply_diff (txs : List Row) (diff : List (String × String)) : List Row :=
  txs.map (fun t =>
    match diff.lookup t.hash with
    | some c => { t with categorie := some c }
    | none => t)

/-- The diff entry one row contributes to `recategorize_all`: its (hash,
new category) pair when the force sweep changes its category, nothing
otherwise. -/
def diff_entry (rules : Rules) (t : Row) : Option (String × String) :=
  if some (force_category rules t) ≠ t.categorie then some (t.hash, force_category rules t)
  else none

/-! ## Recurrence detector (`FinanceService._detect_recurrences`)

The code sorts the whole frame by `date_operation` (NaT sorted last) and
then, per `libelle_simplifie` group, inspects
`group['date_operation'].diff().dt.days.dropna()` — which is exactly the
list of consecutive differences of the group dates that are present, in
ascending order. -/

/-- The group's present operation dates in ascending order. -/
def sorted_dates (g : List Row) : List ℤ :=
  List.insertionSort (· ≤ ·) (g.filterMap Row.date_operation)

/-- Consecutive differences (`Series.diff()` day values after `dropna`). -/
def day_gaps : List ℤ → List ℤ
  | a :: b :: rest => (b - a) :: day_gaps (b :: rest)
  | _ => []

/-- `group['montant'].mean()`. -/
def mean_montant (g : List Row) : ℚ := (g.map Row.montant).sum / (g.length : ℚ)

/-- `FinanceService._detect_recurrences`, decision for one group: at least 3
members, nonzero mean amount, every amount within 5 % of the mean, and every
consecutive day gap inside [28, 32] (`is_monthly` is vacuously true when the
group has fewer than two present dates). -/
def is_recurring_group (g : List Row) : Bool :=
  if g.length < 3 then false
  else if mean_montant g = 0 then false
  else if ¬ (g.all fun r =>
      decide (|r.montant - mean_montant g| / |mean_montant g| ≤ 5 / 100)) then false
  else (day_gaps (sorted_dates g)).all fun d => decide (28 ≤ d ∧ d ≤ 32)

/-- `df.groupby('libelle_simplifie')`: the group of one label. -/
def group_of (rows : List Row) (label : String) : List Row :=
  rows.filter (fun r => r.libelle_simplifie == label)

/-- The `type_budget` the detector leaves on a row: the recurring marker
when its group passes both tests, the `'Ponctuel'` default otherwise. -/
def assigned_budget (rows : List Row) (r : Row) : String :=
  if is_recurring_group (group_of rows r.libelle_simplifie) then "Récurrente" else "Ponctuel"

/-- `FinanceService._detect_recurrences` over the whole table.  (The frame's
in-place `sort_values('date_operation')` only permutes the returned rows;
each row's annotation is a function of its group's contents, which is what
the claims address, so the embedding keeps the input order.) -/
def detect_recurrences (rows : List Row) : List Row :=
  rows.map (fun r => { r with type_budget := assigned_budget rows r })

/-- The spec's four recurrence conditions for a group, as stated. -/
def recurring_conditions (g : List Row) : Prop :=
  3 ≤ g.length ∧ mean_montant g ≠ 0 ∧
    (∀ r ∈ g, |r.montant - mean_montant g| / |mean_montant g| ≤ 5 / 100) ∧
    (∀ d ∈ day_gaps (sorted_dates g), 28 ≤ d ∧ d ≤ 32)

/-! ## Insight detectors (`InsightsService`)

These run over the persisted ledger; the service's `date_op` and
`libelle_simple` columns are this embedding's `date_operation` and
`libelle_simplifie` fields. -/

/-- `expenses_df['depense'] = expenses_df['montant'].abs()`. -/
def depense (r : Row) : ℚ := |r.montant|

/-- `expenses_df = df[df['montant'] < 0]`. -/
def expenses (rows : List Row) : List Row :=
  rows.filter (fun r => decide (r.montant < 0))

/-- One category's group of `expenses_df.groupby('categorie')` (pandas
drops NaN keys, so only `some` categories form groups). -/
def cat_expenses (rows : List Row) (c : String) : List Row :=
  (expenses rows).filter (fun r => r.categorie == some c)

/-- The category's mean absolute spend (`agg ['mean']`). -/
def mean_dep (rows : List Row) (c : String) : ℚ :=
  ((cat_expenses rows c).map depense).sum / ((cat_expenses rows c).length : ℚ)

/-- The square of the category's `agg ['std']` (pandas sample standard
deviation, `ddof = 1`); `category_stats.fillna(0)` makes the
one-observation case 0. -/
def var_dep (rows : List Row) (c : String) : ℚ :=
  if (cat_expenses rows c).length ≤ 1 then 0
  else ((cat_expenses rows c).map (fun r => (depense r - mean_dep rows c) ^ 2)).sum /
    (((cat_expenses rows c).length : ℚ) - 1)

/-- The flag `is_large & is_significant` of one expense row:
`depense > mean + threshold * std` and `depense > 20`.  Because
`std = sqrt(var_dep)` is irrational, the first comparison is kept in the
equivalent squared form — for a nonnegative threshold `k`,
`d > m + k*sqrt(v)` iff `d > m` and `(d-m)^2 > k^2*v` (established against
the real-valued form in the C6 theorem).  Rows with an absent category are
dropped by the inner `merge` on `categorie`. -/
def is_large (rows : List Row) (k : ℚ) (r : Row) : Bool :=
  match r.categorie with
  | none => false
  | some c =>
    (decide (mean_dep rows c < depense r) &&
      decide (k ^ 2 * var_dep rows c < (depense r - mean_dep rows c) ^ 2)) &&
    decide (20 < depense r)

/-- The columns `find_large_purchases` projects
(`['hash', 'date_op', 'libelle_simple', 'categorie', 'depense', 'mean']`). -/
structure LargeRow where
  hash : String
  date_op : Option ℤ
  libelle_simple : String
  categorie : Option String
  depense : ℚ
  mean : ℚ
deriving DecidableEq

def large_proj (rows : List Row) (r : Row) : LargeRow :=
  ⟨r.hash, r.date_operation, r.libelle_simplifie, r.categorie, depense r,
    mean_dep rows (r.categorie.getD "")⟩

/-- `InsightsService.find_large_purchases` with its
`std_dev_threshold` parameter (default `2.0`). -/
def find_large_purchases (rows : List Row) (k : ℚ) : List LargeRow :=
  ((expenses rows).filter (is_large rows k)).map (large_proj rows)

/-- `Series.str.contains('Frais Bancaires', na=False)` on one present
category: a case-sensitive literal substring test (the pattern contains no
regex metacharacters). -/
def contains_frais (c : String) : Bool := isSubstring "Frais Bancaires".data c.data

/-- The columns `find_bank_fees` projects
(`['hash', 'date_op', 'libelle_simple', 'montant']`). -/
structure FeeRow where
  hash : String
  date_op : Option ℤ
  libelle_simple : String
  montant : ℚ
deriving DecidableEq

def fee_proj (r : Row) : FeeRow := ⟨r.hash, r.date_operation, r.libelle_simplifie, r.montant⟩

/-- `InsightsService.find_bank_fees` (`na=False` drops rows whose category
is absent). -/
def find_bank_fees (rows : List Row) : List FeeRow :=
  (rows.filter (fun r =>
    match r.categorie with
    | some c => contains_frais c
    | none => false)).map fee_proj

theorem mem_insert_db (rows : List StmtRow) (db : List String) (a h : String)
    (hmem : h ∈ db) : h ∈ (insert_transactions db rows a).1 := by
  induction rows generalizing db with
  | nil => exact hmem
  | cons r rest ih =>
    simp only [insert_transactions]
    split
    · exact ih db hmem
    · exact ih _ (List.mem_append_left _ hmem)

theorem hash_mem_insert (rows : List StmtRow) (db : List String) (a : String)
    (r : StmtRow) (hr : r ∈ rows) :
    calculate_hash r a ∈ (insert_transactions db rows a).1 := by
  induction rows generalizing db with
  | nil => cases hr
  | cons r₀ rest ih =>
    simp only [insert_transactions]
    rcases List.mem_cons.mp hr with rfl | hr'
    · split
      · exact mem_insert_db rest db a _ (by assumption)
      · exact mem_insert_db rest _ a _ (List.mem_append_right _ (List.mem_singleton.mpr rfl))
    · split
      · exact ih db hr'
      · exact ih _ hr'

theorem insert_all_mem (rows : List StmtRow) (db : List String) (a : String)
    (hall : ∀ r ∈ rows, calculate_hash r a ∈ db) :
    insert_transactions db rows a = (db, 0) := by
  induction rows with
  | nil => rfl
  | cons r rest ih =>
    simp only [insert_transactions]
    rw [if_pos (hall r (List.mem_cons_self r rest))]
    exact ih fun r' hr' => hall r' (List.mem_cons_of_mem r hr')

theorem foldl_map_eq_map_foldl {α β : Type} (f : β → α → α) (bs : List β) (l : List α) :
    bs.foldl (fun l b => l.map (f b)) l = l.map (fun x => bs.foldl (fun x b => f b x) x) := by
  induction bs generalizing l with
  | nil => simp
  | cons b bs ih =>
    simp only [List.foldl_cons]
    rw [ih, List.map_map]
    rfl

/-- The vectorized rule loop acts independently on each masked row. -/
theorem categorize_eq_map (rules : Rules) (force : Bool) (rows : List Row) :
    categorize_transactions rules force rows =
      rows.map (fun r => (rowApplyRules rules (fillNa r, candidate force (fillNa r))).1) := by
  unfold categorize_transactions
  have h1 : (fun (l : List (Row × Bool)) (ck : String × List String) =>
        ck.2.foldl (fun l kw => keywordStep ck.1 kw l) l) =
      fun l ck => l.map (fun p => ck.2.foldl (fun p kw => rowKeywordStep ck.1 kw p) p) := by
    funext l ck
    exact foldl_map_eq_map_foldl (fun kw p => rowKeywordStep ck.1 kw p) ck.2 l
  rw [h1, foldl_map_eq_map_foldl
    (fun (ck : String × List String) p => ck.2.foldl (fun p kw => rowKeywordStep ck.1 kw p) p)
    rules]
  rw [List.map_map, List.map_map]
  rfl

theorem sameExceptCategorie_refl (r : Row) : sameExceptCategorie r r :=
  ⟨rfl, rfl, rfl, rfl, rfl, rfl⟩

theorem sameExceptCategorie_trans {r s t : Row} (h₁ : sameExceptCategorie r s)
    (h₂ : sameExceptCategorie s t) : sameExceptCategorie r t := by
  obtain ⟨a₁, b₁, c₁, d₁, e₁, f₁⟩ := h₁
  obtain ⟨a₂, b₂, c₂, d₂, e₂, f₂⟩ := h₂
  exact ⟨a₁.trans a₂, b₁.trans b₂, c₁.trans c₂, d₁.trans d₂, e₁.trans e₂, f₁.trans f₂⟩

theorem rowKeywordStep_snd (c k : String) (p : Row × Bool) :
    (rowKeywordStep c k p).2 = p.2 := by
  unfold rowKeywordStep
  split <;> rfl

theorem rowKeywordStep_sameExcept (c k : String) (p : Row × Bool) :
    sameExceptCategorie (rowKeywordStep c k p).1 p.1 := by
  unfold rowKeywordStep
  split
  · exact ⟨rfl, rfl, rfl, rfl, rfl, rfl⟩
  · exact sameExceptCategorie_refl _

theorem kwFold_snd (c : String) (kws : List String) :
    ∀ p : Row × Bool, (kws.foldl (fun p kw => rowKeywordStep c kw p) p).2 = p.2 := by
  induction kws with
  | nil => intro p; rfl
  | cons kw kws ih =>
    intro p
    rw [List.foldl_cons, ih, rowKeywordStep_snd]

theorem kwFold_sameExcept (c : String) (kws : List String) :
    ∀ p : Row × Bool,
      sameExceptCategorie (kws.foldl (fun p kw => rowKeywordStep c kw p) p).1 p.1 := by
  induction kws with
  | nil => intro p; exact sameExceptCategorie_refl _
  | cons kw kws ih =>
    intro p
    rw [List.foldl_cons]
    exact sameExceptCategorie_trans (ih _) (rowKeywordStep_sameExcept c kw p)

theorem rowApplyRules_snd (rules : Rules) :
    ∀ p : Row × Bool, (rowApplyRules rules p).2 = p.2 := by
  unfold rowApplyRules
  induction rules with
  | nil => intro p; rfl
  | cons ck rules ih =>
    intro p
    rw [List.foldl_cons, ih, kwFold_snd]

theorem rowApplyRules_sameExcept (rules : Rules) :
    ∀ p : Row × Bool, sameExceptCategorie (rowApplyRules rules p).1 p.1 := by
  unfold rowApplyRules
  induction rules with
  | nil => intro p; exact sameExceptCategorie_refl _
  | cons ck rules ih =>
    intro p
    rw [List.foldl_cons]
    exact sameExceptCategorie_trans (ih _) (kwFold_sameExcept ck.1 ck.2 p)

theorem rowKeywordStep_of_false (c k : String) (p : Row × Bool) (h : p.2 = false) :
    rowKeywordStep c k p = p := by
  unfold rowKeywordStep
  rw [h]
  simp

theorem kwFold_of_false (c : String) (kws : List String) :
    ∀ p : Row × Bool, p.2 = false → kws.foldl (fun p kw => rowKeywordStep c kw p) p = p := by
  induction kws with
  | nil => intro p _; rfl
  | cons kw kws ih =>
    intro p hp
    rw [List.foldl_cons, rowKeywordStep_of_false c kw p hp, ih p hp]

theorem rowApplyRules_of_false (rules : Rules) :
    ∀ p : Row × Bool, p.2 = false → rowApplyRules rules p = p := by
  unfold rowApplyRules
  induction rules with
  | nil => intro p _; rfl
  | cons ck rules ih =>
    intro p hp
    rw [List.foldl_cons, kwFold_of_false ck.1 ck.2 p hp, ih p hp]

theorem kwFold_categorie (c : String) (kws : List String) :
    ∀ p : Row × Bool, p.2 = true →
      (kws.foldl (fun p kw => rowKeywordStep c kw p) p).1.categorie =
        if kws.any (fun kw => containsCI p.1.libelle_operation kw) then some c
        else p.1.categorie := by
  induction kws with
  | nil => intro p _; simp
  | cons kw kws ih =>
    intro p hp
    rw [List.foldl_cons]
    by_cases hkw : containsCI p.1.libelle_operation kw = true
    · have hq : rowKeywordStep c kw p = ({ p.1 with categorie := some c }, p.2) := by
        unfold rowKeywordStep
        rw [hp, hkw]
        simp
      rw [hq, ih _ (by rw [hp])]
      simp [hkw]
    · have hq : rowKeywordStep c kw p = p := by
        unfold rowKeywordStep
        rw [Bool.eq_false_iff.mpr hkw]
        simp
      rw [hq, ih p hp]
      simp [hkw]

theorem lastMatch_foldl_init (label : String) (rules : Rules) :
    ∀ acc : Option String,
      rules.foldl (fun acc ck => if ruleMatches label ck then some ck.1 else acc) acc =
        match lastMatch rules label with
        | some c => some c
        | none => acc := by
  induction rules with
  | nil => intro acc; rfl
  | cons ck rules ih =>
    intro acc
    have hlm : lastMatch (ck :: rules) label =
        rules.foldl (fun acc ck => if ruleMatches label ck then some ck.1 else acc)
          (if ruleMatches label ck then some ck.1 else none) := rfl
    rw [List.foldl_cons, ih, hlm, ih]
    cases h : lastMatch rules label
    · by_cases hm : ruleMatches label ck = true
      · simp [hm]
      · simp [hm]
    · simp

theorem rowApplyRules_categorie (rules : Rules) :
    ∀ p : Row × Bool, p.2 = true →
      (rowApplyRules rules p).1.categorie =
        match lastMatch rules p.1.libelle_operation with
        | some c => some c
        | none => p.1.categorie := by
  unfold rowApplyRules
  induction rules with
  | nil => intro p _; rfl
  | cons ck rules ih =>
    intro p hp
    rw [List.foldl_cons]
    have hq2 : (ck.2.foldl (fun p kw => rowKeywordStep ck.1 kw p) p).2 = true := by
      rw [kwFold_snd, hp]
    have hlbl : (ck.2.foldl (fun p kw => rowKeywordStep ck.1 kw p) p).1.libelle_operation =
        p.1.libelle_operation := (kwFold_sameExcept ck.1 ck.2 p).2.1
    rw [ih _ hq2, hlbl, kwFold_categorie ck.1 ck.2 p hp]
    have hlm : lastMatch (ck :: rules) p.1.libelle_operation =
        rules.foldl (fun acc ck => if ruleMatches p.1.libelle_operation ck then some ck.1 else acc)
          (if ruleMatches p.1.libelle_operation ck then some ck.1 else none) := rfl
    rw [hlm, lastMatch_foldl_init]
    simp only [ruleMatches]
    cases h : lastMatch rules p.1.libelle_operation with
    | none =>
      by_cases hm : (ck.2.any fun kw => containsCI p.1.libelle_operation kw) = true
      · simp [hm]
      · simp [hm]
    | some c => simp

theorem lastMatch_eq_getLast (rules : Rules) (label : String) :
    lastMatch rules label = (matchingCategories rules label).getLast? := by
  induction rules with
  | nil => rfl
  | cons ck rules ih =>
    have hlm : lastMatch (ck :: rules) label =
        rules.foldl (fun acc ck => if ruleMatches label ck then some ck.1 else acc)
          (if ruleMatches label ck then some ck.1 else none) := rfl
    rw [hlm, lastMatch_foldl_init]
    by_cases hm : ruleMatches label ck = true
    · have hmc : matchingCategories (ck :: rules) label =
          ck.1 :: matchingCategories rules label := by
        simp [matchingCategories, hm]
      rw [hmc]
      cases h : lastMatch rules label with
      | none =>
        rw [h] at ih
        cases hcat : matchingCategories rules label with
        | nil => simp [hm]
        | cons m ms =>
          rw [hcat, List.getLast?_eq_getLast_of_ne_nil (List.cons_ne_nil m ms)] at ih
          simp at ih
      | some c =>
        rw [h] at ih
        cases hcat : matchingCategories rules label with
        | nil => rw [hcat] at ih; simp at ih
        | cons m ms =>
          rw [hcat] at ih
          simp [List.getLast?_cons_cons, ← ih]
    · have hmc : matchingCategories (ck :: rules) label = matchingCategories rules label := by
        simp [matchingCategories, hm]
      rw [hmc, ← ih]
      cases h : lastMatch rules label with
      | none => exact if_neg hm
      | some c => rfl

theorem getD_map_of_lt {α β : Type} (f : α → β) (l : List α) (i : ℕ) (h : i < l.length)
    (d : β) (d₀ : α) : (l.map f).getD i d = f (l.getD i d₀) := by
  rw [List.getD_eq_getElem?_getD, List.getD_eq_getElem?_getD, List.getElem?_map,
    List.getElem?_eq_getElem h]
  rfl

theorem fillNa_sameExcept (r : Row) : sameExceptCategorie (fillNa r) r :=
  ⟨rfl, rfl, rfl, rfl, rfl, rfl⟩

theorem fillNa_libelle (r : Row) : (fillNa r).libelle_operation = r.libelle_operation := rfl

/-- The category `_categorize_transactions` leaves on row `i`. -/
theorem categorize_categorie_getD (rules : Rules) (force : Bool) (rows : List Row)
    (i : ℕ) (hi : i < rows.length) :
    ((categorize_transactions rules force rows).getD i default).categorie =
      if candidate force (fillNa (rows.getD i default)) then
        match lastMatch rules (rows.getD i default).libelle_operation with
        | some c => some c
        | none => some ((rows.getD i default).categorie.getD "")
      else some ((rows.getD i default).categorie.getD "") := by
  rw [categorize_eq_map,
    getD_map_of_lt (fun r => (rowApplyRules rules (fillNa r, candidate force (fillNa r))).1)
      rows i hi default default]
  by_cases hc : candidate force (fillNa (rows.getD i default)) = true
  · rw [if_pos hc, rowApplyRules_categorie rules _ hc]
    rfl
  · rw [if_neg hc,
      rowApplyRules_of_false rules _ (Bool.eq_false_iff.mpr hc)]
    rfl

/-- In a force-mode sweep the categorizer leaves exactly
`force_category` on every row. -/
theorem force_category_spec (rules : Rules) (r : Row) :
    (rowApplyRules rules (fillNa r, candidate true (fillNa r))).1.categorie =
      some (force_category rules r) := by
  rw [rowApplyRules_categorie rules _ rfl]
  show (match lastMatch rules r.libelle_operation with
        | some c => some c
        | none => some (r.categorie.getD "")) = some (force_category rules r)
  unfold force_category
  cases h : lastMatch rules r.libelle_operation
  · rfl
  · rfl

theorem zip_self_map {α β : Type} (f : α → β) (l : List α) :
    l.zip (l.map f) = l.map (fun a => (a, f a)) := by
  induction l with
  | nil => rfl
  | cons a l ih => simp [ih]

/-- `recategorize_all` row by row. -/
theorem recategorize_eq (rules : Rules) (txs : List Row) :
    recategorize_all rules txs = txs.filterMap (diff_entry rules) := by
  unfold recategorize_all
  rw [categorize_eq_map, zip_self_map, List.filterMap_map]
  apply List.filterMap_congr
  intro t _
  simp only [Function.comp_apply, force_category_spec rules t]
  unfold diff_entry
  by_cases hch : some (force_category rules t) ≠ t.categorie
  · rw [if_pos hch, if_pos hch]
    rfl
  · rw [if_neg hch, if_neg hch]

theorem lookup_filterMap_none (rules : Rules) (h : String) :
    ∀ txs : List Row, (∀ t ∈ txs, t.hash ≠ h) →
      (txs.filterMap (diff_entry rules)).lookup h = none := by
  intro txs
  induction txs with
  | nil => intro _; rfl
  | cons x rest ih =>
    intro hall
    rw [List.filterMap_cons]
    cases hd : diff_entry rules x with
    | none => exact ih fun t ht => hall t (List.mem_cons_of_mem x ht)
    | some p =>
      obtain ⟨k, v⟩ := p
      have hp1 : k = x.hash := by
        unfold diff_entry at hd
        split at hd
        · cases hd; rfl
        · cases hd
      rw [List.lookup_cons]
      have hne : (h == k) = false := by
        rw [hp1]
        exact beq_eq_false_iff_ne.mpr fun he =>
          hall x (List.mem_cons_self x rest) he.symm
      rw [hne]
      exact ih fun t ht => hall t (List.mem_cons_of_mem x ht)

/-- With unique hashes, looking a row's hash up in the diff finds exactly
that row's entry. -/
theorem lookup_diff (rules : Rules) :
    ∀ (txs : List Row) (t : Row), (txs.map Row.hash).Nodup → t ∈ txs →
      (txs.filterMap (diff_entry rules)).lookup t.hash =
        (diff_entry rules t).map Prod.snd := by
  intro txs
  induction txs with
  | nil => intro t _ ht; cases ht
  | cons x rest ih =>
    intro t hnd ht
    have hnd' : (rest.map Row.hash).Nodup := (List.nodup_cons.mp hnd).2
    have hxmem : x.hash ∉ rest.map Row.hash := (List.nodup_cons.mp hnd).1
    rw [List.filterMap_cons]
    rcases List.mem_cons.mp ht with rfl | ht'
    · cases hd : diff_entry rules t with
      | none =>
        simp only [Option.map_none']
        exact lookup_filterMap_none rules t.hash rest fun s hs he =>
          hxmem (he ▸ List.mem_map_of_mem Row.hash hs)
      | some p =>
        obtain ⟨k, v⟩ := p
        have hp1 : k = t.hash := by
          unfold diff_entry at hd
          split at hd
          · cases hd; rfl
          · cases hd
        rw [List.lookup_cons, hp1]
        simp
    · have hne : (t.hash == x.hash) = false := by
        refine beq_eq_false_iff_ne.mpr fun he => hxmem ?_
        exact he ▸ List.mem_map_of_mem Row.hash ht'
      cases hd : diff_entry rules x with
      | none => exact ih t hnd' ht'
      | some p =>
        obtain ⟨k, v⟩ := p
        have hp1 : k = x.hash := by
          unfold diff_entry at hd
          split at hd
          · cases hd; rfl
          · cases hd
        rw [List.lookup_cons, hp1, hne]
        exact ih t hnd' ht'

/-- `force_category` is unchanged by overwriting the category with the value
it computes. -/
theorem force_category_idem (rules : Rules) (t : Row) :
    force_category rules { t with categorie := some (force_category rules t) } =
      force_category rules t := by
  have hc : force_category rules { t with categorie := some (force_category rules t) } =
      match lastMatch rules t.libelle_operation with
      | some k => k
      | none => force_category rules t := rfl
  rw [hc]
  cases h : lastMatch rules t.libelle_operation with
  | some c =>
    have hu : force_category rules t =
        match lastMatch rules t.libelle_operation with
        | some k => k
        | none => t.categorie.getD "" := rfl
    rw [hu, h]
  | none => rfl

theorem is_recurring_iff (g : List Row) :
    is_recurring_group g = true ↔ recurring_conditions g := by
  unfold is_recurring_group recurring_conditions
  split_ifs with h1 h2 h3
  · constructor
    · intro hf
      exact absurd hf (by decide)
    · intro hc
      exact absurd hc.1 (by omega)
  · constructor
    · intro hf
      exact absurd hf (by decide)
    · intro hc
      exact absurd h2 hc.2.1
  · constructor
    · intro hall
      refine ⟨by omega, h2, ?_, ?_⟩
      · intro r hr
        exact of_decide_eq_true (List.all_eq_true.mp h3 r hr)
      · intro d hd
        exact of_decide_eq_true (List.all_eq_true.mp hall d hd)
    · intro hc
      exact List.all_eq_true.mpr fun d hd => decide_eq_true (hc.2.2.2 d hd)
  · constructor
    · intro hf
      exact absurd hf (by decide)
    · intro hc
      exact absurd (List.all_eq_true.mpr fun r hr => decide_eq_true (hc.2.2.1 r hr)) h3

theorem mean_montant_perm {g g' : List Row} (h : g.Perm g') :
    mean_montant g = mean_montant g' := by
  unfold mean_montant
  rw [(h.map Row.montant).sum_eq, h.length_eq]

theorem sorted_dates_perm {g g' : List Row} (h : g.Perm g') :
    sorted_dates g = sorted_dates g' := by
  unfold sorted_dates
  refine List.eq_of_perm_of_sorted ?_ (List.sorted_insertionSort _ _)
    (List.sorted_insertionSort _ _)
  exact (List.perm_insertionSort _ _).trans
    ((h.filterMap _).trans (List.perm_insertionSort _ _).symm)

theorem all_perm {α : Type} {p : α → Bool} {l l' : List α} (h : l.Perm l') :
    l.all p = l'.all p := by
  cases hb : l'.all p
  · cases hb2 : l.all p
    · rfl
    · rw [List.all_eq_true] at hb2
      have hcon : l'.all p = true :=
        List.all_eq_true.mpr fun a ha => hb2 a (h.mem_iff.mpr ha)
      rw [hb] at hcon
      cases hcon
  · rw [List.all_eq_true] at hb ⊢
    exact fun a ha => hb a (h.mem_iff.mp ha)

theorem is_recurring_perm {g g' : List Row} (h : g.Perm g') :
    is_recurring_group g = is_recurring_group g' := by
  have h3 : (g.all fun r =>
      decide (|r.montant - mean_montant g| / |mean_montant g| ≤ 5 / 100)) =
      (g'.all fun r =>
        decide (|r.montant - mean_montant g'| / |mean_montant g'| ≤ 5 / 100)) := by
    rw [mean_montant_perm h]
    exact all_perm h
  unfold is_recurring_group
  rw [h.length_eq, h3, sorted_dates_perm h, mean_montant_perm h]

theorem assigned_budget_perm {rows rows' : List Row} (h : rows.Perm rows') (r : Row) :
    assigned_budget rows r = assigned_budget rows' r := by
  unfold assigned_budget group_of
  rw [is_recurring_perm (h.filter (fun s => s.libelle_simplifie == r.libelle_simplifie))]

theorem var_dep_nonneg (rows : List Row) (c : String) : 0 ≤ var_dep rows c := by
  unfold var_dep
  split_ifs with h
  · exact le_refl 0
  · apply div_nonneg
    · apply List.sum_nonneg
      intro x hx
      obtain ⟨r, _, rfl⟩ := List.mem_map.mp hx
      exact sq_nonneg _
    · have h2 : (2 : ℚ) ≤ ((cat_expenses rows c).length : ℚ) := by
        exact_mod_cast (by omega : 2 ≤ (cat_expenses rows c).length)
      linarith

/-- The squared comparison used by `is_large` agrees with the code's
`depense > mean + threshold * std` once `std = sqrt(var)` is read over the
reals, for any nonnegative threshold. -/
theorem large_cond_iff (m d v k : ℚ) (hk : 0 ≤ k) (hv : 0 ≤ v) :
    (m < d ∧ k ^ 2 * v < (d - m) ^ 2) ↔
      ((m : ℝ) + (k : ℝ) * Real.sqrt (v : ℝ) < (d : ℝ)) := by
  have hvr : (0 : ℝ) ≤ (v : ℝ) := by exact_mod_cast hv
  have hkr : (0 : ℝ) ≤ (k : ℝ) := by exact_mod_cast hk
  have hs : (0 : ℝ) ≤ (k : ℝ) * Real.sqrt (v : ℝ) :=
    mul_nonneg hkr (Real.sqrt_nonneg _)
  constructor
  · rintro ⟨h1, h2⟩
    have ht : (0 : ℝ) < (d : ℝ) - (m : ℝ) := by
      have : (m : ℝ) < (d : ℝ) := by exact_mod_cast h1
      linarith
    have hsq : ((k : ℝ) * Real.sqrt (v : ℝ)) ^ 2 < ((d : ℝ) - (m : ℝ)) ^ 2 := by
      rw [mul_pow, Real.sq_sqrt hvr]
      exact_mod_cast h2
    nlinarith [hsq, ht, hs]
  · intro h
    have ht : (0 : ℝ) < (d : ℝ) - (m : ℝ) := by linarith
    have h1 : m < d := by
      have : (m : ℝ) < (d : ℝ) := by linarith
      exact_mod_cast this
    refine ⟨h1, ?_⟩
    have h2 : (k : ℝ) * Real.sqrt (v : ℝ) < (d : ℝ) - (m : ℝ) := by linarith
    have h3 : ((k : ℝ) * Real.sqrt (v : ℝ)) ^ 2 < ((d : ℝ) - (m : ℝ)) ^ 2 := by
      nlinarith
    rw [mul_pow, Real.sq_sqrt hvr] at h3
    exact_mod_cast h3

/-- Claim C1, corrected.  The fingerprint is a pure function of exactly
(operation date, raw label, amount, account type): rows agreeing on those
four values — whatever their other columns hold — receive equal
fingerprints, and re-importing the same rows into a ledger that already
absorbed them inserts zero new records.  (The casing/whitespace-invariance
part of the original claim is refuted by `Bank.C1_counterexample`.) -/
theorem C1_fingerprint :
    (∀ (r₁ r₂ : Bank.StmtRow) (a : String),
      r₁.date_operation = r₂.date_operation →
      r₁.libelle_operation = r₂.libelle_operation →
      r₁.montant = r₂.montant →
      Bank.calculate_hash r₁ a = Bank.calculate_hash r₂ a) ∧
    (∀ (db : List String) (rows : List Bank.StmtRow) (a : String),
      (Bank.insert_transactions
        (Bank.insert_transactions db rows a).1 rows a).2 = 0) := by
  constructor
  · intro r₁ r₂ a h₁ h₂ h₃
    cases r₁; cases r₂
    simp only at h₁ h₂ h₃
    simp [Bank.calculate_hash, h₁, h₂, h₃]
  · intro db rows a
    rw [Bank.insert_all_mem rows _ a
      (fun r hr => Bank.hash_mem_insert rows db a r hr)]

theorem C1_fingerprint_witness :
    Bank.calculate_hash ⟨"01/02/2024", "LOYER", "-700.0", "LOYER", ""⟩ "Perso" =
      Bank.calculate_hash ⟨"01/02/2024", "LOYER", "-700.0", "LOYER AGENCE", "Loyer"⟩ "Perso" ∧
    (Bank.insert_transactions
      (Bank.insert_transactions [] [⟨"01/02/2024", "LOYER", "-700.0", "LOYER", ""⟩] "Perso").1
      [⟨"01/02/2024", "LOYER", "-700.0", "LOYER", ""⟩] "Perso").2 = 0 :=
  ⟨Bank.C1_fingerprint.1 _ _ "Perso" rfl rfl rfl,
   Bank.C1_fingerprint.2 [] _ "Perso"⟩

set_option maxRecDepth 4000 in
/-- Claim C1, counterexample to the claim as stated: two imports of the same
physical statement line whose raw label differs only in casing (a variant
another export format may introduce) yield different fingerprints, because
`_calculate_hash` feeds the raw label into SHA-256 without any case or
whitespace normalisation. -/
theorem C1_counterexample :
    Bank.calculate_hash ⟨"2024-01-05 00:00:00", "NETFLIX SARL", "-10.0", "NETFLIX", ""⟩ "Perso" ≠
      Bank.calculate_hash ⟨"2024-01-05 00:00:00", "Netflix Sarl", "-10.0", "NETFLIX", ""⟩ "Perso" := by
  decide

/-- Claim C2, confirmed.  The two ingestion paths disagree on the
signed-amount convention: on every row whose (identically parsed) debit is
nonzero, `logic.preprocess_data` computes `montant = credit - debit` while
`FinanceService._preprocess_dataframe` computes `montant = credit + debit`,
so the two preprocessors assign different amounts to that row. -/
theorem C2_amount_sign_disagreement :
    ∀ r : Bank.AmountRow, Bank.parsed_debit r ≠ 0 →
      Bank.preprocess_data_montant r ≠ Bank.preprocess_dataframe_montant r := by
  intro r hd heq
  apply hd
  simp only [Bank.preprocess_data_montant, Bank.preprocess_dataframe_montant] at heq
  linarith

theorem C2_amount_sign_disagreement_witness :
    Bank.parsed_debit ⟨some "100,50", some ""⟩ ≠ 0 ∧
      Bank.preprocess_data_montant ⟨some "100,50", some ""⟩ ≠
        Bank.preprocess_dataframe_montant ⟨some "100,50", some ""⟩ :=
  have hd : Bank.parsed_debit ⟨some "100,50", some ""⟩ ≠ 0 := by
    simp [Bank.parsed_debit, Bank.to_numeric, Bank.replaceChar, Bank.splitOnDot,
      Bank.natOfDigits]
    norm_num
  ⟨hd, Bank.C2_amount_sign_disagreement ⟨some "100,50", some ""⟩ hd⟩

/-- Claim C5, confirmed.  For a candidate row whose raw label matches the
keywords of more than one category, the category left by a single
categorization pass is the last matching category in rule iteration order:
later categories overwrite earlier matches because the candidate mask is
computed once, before the rule loop. -/
theorem C5_last_match_wins :
    ∀ (rules : Bank.Rules) (force : Bool) (rows : List Bank.Row) (i : ℕ),
      i < rows.length →
      Bank.candidate force (Bank.fillNa (rows.getD i default)) = true →
      2 ≤ (Bank.matchingCategories rules (rows.getD i default).libelle_operation).length →
      ((Bank.categorize_transactions rules force rows).getD i default).categorie =
        (Bank.matchingCategories rules (rows.getD i default).libelle_operation).getLast? := by
  intro rules force rows i hi hc hm
  rw [Bank.categorize_categorie_getD rules force rows i hi, if_pos hc,
    Bank.lastMatch_eq_getLast]
  cases hcat : Bank.matchingCategories rules (rows.getD i default).libelle_operation with
  | nil => rw [hcat] at hm; simp at hm
  | cons m ms =>
    rw [List.getLast?_eq_getLast_of_ne_nil (List.cons_ne_nil m ms)]

theorem C5_last_match_wins_witness :
    0 < 1 ∧
    Bank.candidate false
      (Bank.fillNa ([(⟨"h1", "PAIEMENT NETFLIX SARL", "NETFLIX", 0, none, none, "Ponctuel"⟩ :
        Bank.Row)].getD 0 default)) = true ∧
    2 ≤ (Bank.matchingCategories [("Loisirs", ["NETFLIX"]), ("Abonnements", ["FLIX"])]
      (([(⟨"h1", "PAIEMENT NETFLIX SARL", "NETFLIX", 0, none, none, "Ponctuel"⟩ :
        Bank.Row)].getD 0 default)).libelle_operation).length ∧
    ((Bank.categorize_transactions [("Loisirs", ["NETFLIX"]), ("Abonnements", ["FLIX"])] false
        [(⟨"h1", "PAIEMENT NETFLIX SARL", "NETFLIX", 0, none, none, "Ponctuel"⟩ :
          Bank.Row)]).getD 0 default).categorie =
      (Bank.matchingCategories [("Loisirs", ["NETFLIX"]), ("Abonnements", ["FLIX"])]
        (([(⟨"h1", "PAIEMENT NETFLIX SARL", "NETFLIX", 0, none, none, "Ponctuel"⟩ :
          Bank.Row)].getD 0 default)).libelle_operation).getLast? :=
  ⟨by decide, by decide, by decide,
   Bank.C5_last_match_wins [("Loisirs", ["NETFLIX"]), ("Abonnements", ["FLIX"])] false
     [⟨"h1", "PAIEMENT NETFLIX SARL", "NETFLIX", 0, none, none, "Ponctuel"⟩] 0
     (by decide) (by decide) (by decide)⟩

/-- Claim C7, confirmed.  In fill-empty-only mode (`force = False`) the
categorizer changes nothing but the category column: every row keeps all its
other fields, a row whose prior category is non-empty keeps exactly that
category, and a row matched by no rule keyword keeps its prior category
(its NaN-filled empty form when it was absent). -/
theorem C7_fill_empty_only_frame :
    ∀ (rules : Bank.Rules) (rows : List Bank.Row) (i : ℕ), i < rows.length →
      Bank.sameExceptCategorie ((Bank.categorize_transactions rules false rows).getD i default)
        (rows.getD i default) ∧
      (∀ c : String, (rows.getD i default).categorie = some c → c ≠ "" →
        ((Bank.categorize_transactions rules false rows).getD i default).categorie = some c) ∧
      (Bank.lastMatch rules (rows.getD i default).libelle_operation = none →
        ((Bank.categorize_transactions rules false rows).getD i default).categorie =
          some ((rows.getD i default).categorie.getD "")) := by
  intro rules rows i hi
  refine ⟨?_, ?_, ?_⟩
  · rw [Bank.categorize_eq_map,
      Bank.getD_map_of_lt _ rows i hi default default]
    exact Bank.sameExceptCategorie_trans
      (Bank.rowApplyRules_sameExcept rules _)
      (Bank.fillNa_sameExcept _)
  · intro c hc hne
    rw [Bank.categorize_categorie_getD rules false rows i hi]
    have h1 : (Bank.fillNa (rows.getD i default)).categorie.getD "" = c := by
      show (rows.getD i default).categorie.getD "" = c
      rw [hc]
      rfl
    have hcand : Bank.candidate false (Bank.fillNa (rows.getD i default)) = false := by
      simp only [Bank.candidate, Bool.false_or]
      rw [h1]
      exact beq_eq_false_iff_ne.mpr hne
    rw [hcand, if_neg (by simp), hc]
    rfl
  · intro hlm
    rw [Bank.categorize_categorie_getD rules false rows i hi, hlm]
    split <;> rfl

theorem C7_fill_empty_only_frame_witness :
    Bank.sameExceptCategorie
      ((Bank.categorize_transactions [("Loisirs", ["NETFLIX"])] false
        [(⟨"h1", "PAIEMENT NETFLIX", "NETFLIX", 0, none, some "Manuel", "Ponctuel"⟩ :
          Bank.Row)]).getD 0 default)
      ([(⟨"h1", "PAIEMENT NETFLIX", "NETFLIX", 0, none, some "Manuel", "Ponctuel"⟩ :
        Bank.Row)].getD 0 default) ∧
    ((Bank.categorize_transactions [("Loisirs", ["NETFLIX"])] false
      [(⟨"h1", "PAIEMENT NETFLIX", "NETFLIX", 0, none, some "Manuel", "Ponctuel"⟩ :
        Bank.Row)]).getD 0 default).categorie = some "Manuel" :=
  have h := Bank.C7_fill_empty_only_frame [("Loisirs", ["NETFLIX"])]
    [⟨"h1", "PAIEMENT NETFLIX", "NETFLIX", 0, none, some "Manuel", "Ponctuel"⟩] 0 (by decide)
  ⟨h.1, h.2.1 "Manuel" rfl (by decide)⟩

/-- Claim C4, confirmed.  Under unique fingerprints (the ledger's primary
key), `recategorize_all` returns exactly the (fingerprint, new category)
pairs of the rows whose category the forced sweep changes, and it is
idempotent: after applying the diff, a second sweep under the same rule
snapshot returns an empty diff. -/
theorem C4_resweep_diff :
    ∀ (rules : Bank.Rules) (txs : List Bank.Row),
      (txs.map Bank.Row.hash).Nodup →
      (∀ p : String × String,
        p ∈ Bank.recategorize_all rules txs ↔
          ∃ t ∈ txs, some (Bank.force_category rules t) ≠ t.categorie ∧
            p = (t.hash, Bank.force_category rules t)) ∧
      Bank.recategorize_all rules
        (Bank.apply_diff txs (Bank.recategorize_all rules txs)) = [] := by
  intro rules txs hnd
  constructor
  · intro p
    rw [Bank.recategorize_eq, List.mem_filterMap]
    constructor
    · rintro ⟨t, ht, hdt⟩
      unfold Bank.diff_entry at hdt
      split at hdt
      · cases hdt
        exact ⟨t, ht, by assumption, rfl⟩
      · cases hdt
    · rintro ⟨t, ht, hch, rfl⟩
      refine ⟨t, ht, ?_⟩
      unfold Bank.diff_entry
      rw [if_pos hch]
  · rw [Bank.recategorize_eq rules (Bank.apply_diff txs (Bank.recategorize_all rules txs)),
      List.filterMap_eq_nil_iff]
    intro t' ht'
    unfold Bank.apply_diff at ht'
    rw [Bank.recategorize_eq rules txs] at ht'
    obtain ⟨t, ht, rfl⟩ := List.mem_map.mp ht'
    rw [Bank.lookup_diff rules txs t hnd ht]
    cases hd : Bank.diff_entry rules t with
    | none =>
      simp only [Option.map_none']
      exact hd
    | some p =>
      obtain ⟨k, v⟩ := p
      have hv : v = Bank.force_category rules t := by
        unfold Bank.diff_entry at hd
        split at hd
        · cases hd; rfl
        · cases hd
      simp only [Option.map_some']
      show Bank.diff_entry rules { t with categorie := some v } = none
      rw [hv]
      unfold Bank.diff_entry
      have hno : ¬ (some (Bank.force_category rules
          { t with categorie := some (Bank.force_category rules t) }) ≠
            ({ t with categorie := some (Bank.force_category rules t) } : Bank.Row).categorie) := by
        intro hcon
        exact hcon (by rw [Bank.force_category_idem rules t])
      rw [if_neg hno]

theorem C4_resweep_diff_witness :
    ([(⟨"h1", "NETFLIX ABO", "NETFLIX", 0, none, none, "Ponctuel"⟩ : Bank.Row)].map
      Bank.Row.hash).Nodup ∧
    ((⟨"h1", "NETFLIX ABO", "NETFLIX", 0, none, none, "Ponctuel"⟩ : Bank.Row).hash,
        Bank.force_category [("Loisirs", ["NETFLIX"])]
          (⟨"h1", "NETFLIX ABO", "NETFLIX", 0, none, none, "Ponctuel"⟩ : Bank.Row)) ∈
      Bank.recategorize_all [("Loisirs", ["NETFLIX"])]
        [⟨"h1", "NETFLIX ABO", "NETFLIX", 0, none, none, "Ponctuel"⟩] ∧
    Bank.recategorize_all [("Loisirs", ["NETFLIX"])]
      (Bank.apply_diff [⟨"h1", "NETFLIX ABO", "NETFLIX", 0, none, none, "Ponctuel"⟩]
        (Bank.recategorize_all [("Loisirs", ["NETFLIX"])]
          [⟨"h1", "NETFLIX ABO", "NETFLIX", 0, none, none, "Ponctuel"⟩])) = [] :=
  have h := C4_resweep_diff [("Loisirs", ["NETFLIX"])]
    [⟨"h1", "NETFLIX ABO", "NETFLIX", 0, none, none, "Ponctuel"⟩] (by decide)
  ⟨by decide,
   (h.1 _).mpr ⟨⟨"h1", "NETFLIX ABO", "NETFLIX", 0, none, none, "Ponctuel"⟩,
     List.mem_cons_self _ _, by decide, rfl⟩,
   h.2⟩

/-- Claim C3, confirmed.  The recurrence detector marks a row recurring
exactly when its `libelle_simplifie` group has at least 3 members, a nonzero
mean amount, every member within the 5 % deviation band, and every
consecutive day gap of the date-sorted group inside [28, 32]; any other row
is left with the punctual default. -/
theorem C3_recurrence_characterisation :
    ∀ (rows : List Bank.Row) (r : Bank.Row), r ∈ rows →
      (Bank.assigned_budget rows r = "Récurrente" ↔
        Bank.recurring_conditions (Bank.group_of rows r.libelle_simplifie)) ∧
      (Bank.assigned_budget rows r = "Récurrente" ∨
        Bank.assigned_budget rows r = "Ponctuel") ∧
      Bank.detect_recurrences rows =
        rows.map (fun s => { s with type_budget := Bank.assigned_budget rows s }) := by
  intro rows r _
  refine ⟨?_, ?_, rfl⟩
  · unfold Bank.assigned_budget
    by_cases hg : Bank.is_recurring_group (Bank.group_of rows r.libelle_simplifie) = true
    · rw [if_pos hg]
      exact ⟨fun _ => (Bank.is_recurring_iff _).mp hg, fun _ => rfl⟩
    · rw [if_neg hg]
      constructor
      · intro habs
        exact absurd habs (by decide)
      · intro hc
        exact absurd ((Bank.is_recurring_iff _).mpr hc) hg
  · unfold Bank.assigned_budget
    by_cases hg : Bank.is_recurring_group (Bank.group_of rows r.libelle_simplifie) = true
    · rw [if_pos hg]
      exact Or.inl rfl
    · rw [if_neg hg]
      exact Or.inr rfl

theorem C3_recurrence_characterisation_witness :
    ((⟨"h1", "ABO X", "ABO", -10, some 0, none, "Ponctuel"⟩ : Bank.Row) ∈
      [(⟨"h1", "ABO X", "ABO", -10, some 0, none, "Ponctuel"⟩ : Bank.Row)]) ∧
    (Bank.assigned_budget [(⟨"h1", "ABO X", "ABO", -10, some 0, none, "Ponctuel"⟩ : Bank.Row)]
        (⟨"h1", "ABO X", "ABO", -10, some 0, none, "Ponctuel"⟩ : Bank.Row) = "Récurrente" ∨
      Bank.assigned_budget [(⟨"h1", "ABO X", "ABO", -10, some 0, none, "Ponctuel"⟩ : Bank.Row)]
        (⟨"h1", "ABO X", "ABO", -10, some 0, none, "Ponctuel"⟩ : Bank.Row) = "Ponctuel") :=
  ⟨List.mem_cons_self _ _,
   (C3_recurrence_characterisation
     [⟨"h1", "ABO X", "ABO", -10, some 0, none, "Ponctuel"⟩]
     ⟨"h1", "ABO X", "ABO", -10, some 0, none, "Ponctuel"⟩
     (List.mem_cons_self _ _)).2.1⟩

/-- Claim C9, confirmed.  Recurrence detection is order-independent: on
permuted input tables it assigns the same budget kind to the same rows
(sorting by date happens inside the detector, on the group contents), and
the annotated outputs are permutations of each other. -/
theorem C9_order_independence :
    ∀ rows rows' : List Bank.Row, rows.Perm rows' →
      (∀ r : Bank.Row, Bank.assigned_budget rows r = Bank.assigned_budget rows' r) ∧
      (Bank.detect_recurrences rows).Perm (Bank.detect_recurrences rows') := by
  intro rows rows' h
  refine ⟨fun r => Bank.assigned_budget_perm h r, ?_⟩
  unfold Bank.detect_recurrences
  have hfn : (fun r : Bank.Row => { r with type_budget := Bank.assigned_budget rows r }) =
      fun r : Bank.Row => { r with type_budget := Bank.assigned_budget rows' r } :=
    funext fun r => by rw [Bank.assigned_budget_perm h r]
  rw [hfn]
  exact h.map _

theorem C9_order_independence_witness :
    (∀ r : Bank.Row,
      Bank.assigned_budget [(⟨"h1", "A", "A", 1, some 0, none, "Ponctuel"⟩ : Bank.Row),
          ⟨"h2", "B", "B", 2, some 40, none, "Ponctuel"⟩] r =
        Bank.assigned_budget [(⟨"h2", "B", "B", 2, some 40, none, "Ponctuel"⟩ : Bank.Row),
          ⟨"h1", "A", "A", 1, some 0, none, "Ponctuel"⟩] r) ∧
    (Bank.detect_recurrences [(⟨"h1", "A", "A", 1, some 0, none, "Ponctuel"⟩ : Bank.Row),
        ⟨"h2", "B", "B", 2, some 40, none, "Ponctuel"⟩]).Perm
      (Bank.detect_recurrences [(⟨"h2", "B", "B", 2, some 40, none, "Ponctuel"⟩ : Bank.Row),
        ⟨"h1", "A", "A", 1, some 0, none, "Ponctuel"⟩]) :=
  C9_order_independence _ _
    (List.Perm.swap (⟨"h2", "B", "B", 2, some 40, none, "Ponctuel"⟩ : Bank.Row)
      (⟨"h1", "A", "A", 1, some 0, none, "Ponctuel"⟩ : Bank.Row) [])

/-- Claim C10, confirmed.  A group of at least 3 rows with a nonzero mean
and all amounts inside the 5 % band, every one of whose operation dates is
absent, has an empty day-gap list, so the interval test passes vacuously and
the whole group is flagged recurring despite carrying no date evidence. -/
theorem C10_absent_dates_vacuous :
    ∀ (rows : List Bank.Row) (r : Bank.Row), r ∈ rows →
      (∀ x ∈ Bank.group_of rows r.libelle_simplifie, x.date_operation = none) →
      3 ≤ (Bank.group_of rows r.libelle_simplifie).length →
      Bank.mean_montant (Bank.group_of rows r.libelle_simplifie) ≠ 0 →
      (∀ x ∈ Bank.group_of rows r.libelle_simplifie,
        |x.montant - Bank.mean_montant (Bank.group_of rows r.libelle_simplifie)| /
          |Bank.mean_montant (Bank.group_of rows r.libelle_simplifie)| ≤ 5 / 100) →
      Bank.day_gaps (Bank.sorted_dates (Bank.group_of rows r.libelle_simplifie)) = [] ∧
      Bank.assigned_budget rows r = "Récurrente" := by
  intro rows r _ hdates hlen hmean hdev
  have hnil : Bank.sorted_dates (Bank.group_of rows r.libelle_simplifie) = [] := by
    unfold Bank.sorted_dates
    have hfm : (Bank.group_of rows r.libelle_simplifie).filterMap Bank.Row.date_operation
        = [] := List.filterMap_eq_nil_iff.mpr hdates
    rw [hfm]
    rfl
  refine ⟨by rw [hnil]; rfl, ?_⟩
  unfold Bank.assigned_budget
  rw [if_pos ((Bank.is_recurring_iff _).mpr
    ⟨hlen, hmean, hdev, fun d hd => by rw [hnil] at hd; cases hd⟩)]

theorem C10_absent_dates_vacuous_witness :
    Bank.day_gaps (Bank.sorted_dates (Bank.group_of
      [(⟨"h1", "ABO X", "ABO", -10, none, none, "Ponctuel"⟩ : Bank.Row),
       ⟨"h2", "ABO X", "ABO", -10, none, none, "Ponctuel"⟩,
       ⟨"h3", "ABO X", "ABO", -10, none, none, "Ponctuel"⟩]
      (⟨"h1", "ABO X", "ABO", -10, none, none, "Ponctuel"⟩ : Bank.Row).libelle_simplifie)) = [] ∧
    Bank.assigned_budget
      [(⟨"h1", "ABO X", "ABO", -10, none, none, "Ponctuel"⟩ : Bank.Row),
       ⟨"h2", "ABO X", "ABO", -10, none, none, "Ponctuel"⟩,
       ⟨"h3", "ABO X", "ABO", -10, none, none, "Ponctuel"⟩]
      (⟨"h1", "ABO X", "ABO", -10, none, none, "Ponctuel"⟩ : Bank.Row) = "Récurrente" := by
  have hg : Bank.group_of
      [(⟨"h1", "ABO X", "ABO", -10, none, none, "Ponctuel"⟩ : Bank.Row),
       ⟨"h2", "ABO X", "ABO", -10, none, none, "Ponctuel"⟩,
       ⟨"h3", "ABO X", "ABO", -10, none, none, "Ponctuel"⟩]
      (⟨"h1", "ABO X", "ABO", -10, none, none, "Ponctuel"⟩ : Bank.Row).libelle_simplifie =
      [(⟨"h1", "ABO X", "ABO", -10, none, none, "Ponctuel"⟩ : Bank.Row),
       ⟨"h2", "ABO X", "ABO", -10, none, none, "Ponctuel"⟩,
       ⟨"h3", "ABO X", "ABO", -10, none, none, "Ponctuel"⟩] := rfl
  have hm : Bank.mean_montant
      [(⟨"h1", "ABO X", "ABO", -10, none, none, "Ponctuel"⟩ : Bank.Row),
       ⟨"h2", "ABO X", "ABO", -10, none, none, "Ponctuel"⟩,
       ⟨"h3", "ABO X", "ABO", -10, none, none, "Ponctuel"⟩] = -10 := by
    simp [Bank.mean_montant]
    norm_num
  refine C10_absent_dates_vacuous _ _ (List.mem_cons_self _ _) ?_ ?_ ?_ ?_
  · rw [hg]
    intro x hx
    rcases List.mem_cons.mp hx with rfl | hx
    · rfl
    rcases List.mem_cons.mp hx with rfl | hx
    · rfl
    rcases List.mem_cons.mp hx with rfl | hx
    · rfl
    cases hx
  · rw [hg]
    decide
  · rw [hg, hm]
    norm_num
  · rw [hg, hm]
    intro x hx
    rcases List.mem_cons.mp hx with rfl | hx
    · norm_num
    rcases List.mem_cons.mp hx with rfl | hx
    · norm_num
    rcases List.mem_cons.mp hx with rfl | hx
    · norm_num
    cases hx

/-- Claim C6, confirmed.  An expense row of a present category is flagged
exactly when its absolute spend strictly exceeds the category's mean plus
`k` standard deviations (sample standard deviation of absolute spends, zero
for a single observation) and strictly exceeds the 20-unit floor;
consequently a category whose every spend is at most 20 units never
produces a flagged row, regardless of variance. -/
theorem C6_outlier_characterisation :
    ∀ (rows : List Bank.Row) (k : ℚ), 0 ≤ k →
      (∀ (r : Bank.Row) (c : String), r ∈ rows → r.montant < 0 → r.categorie = some c →
        (Bank.large_proj rows r ∈ Bank.find_large_purchases rows k ↔
          ((Bank.mean_dep rows c : ℝ) +
              (k : ℝ) * Real.sqrt ((Bank.var_dep rows c : ℚ) : ℝ) < (Bank.depense r : ℝ) ∧
            20 < Bank.depense r))) ∧
      (∀ c : String,
        (∀ r ∈ rows, r.montant < 0 → r.categorie = some c → Bank.depense r ≤ 20) →
        ∀ x ∈ Bank.find_large_purchases rows k, x.categorie ≠ some c) ∧
      (∀ x ∈ Bank.find_large_purchases rows k,
        ∃ r' ∈ rows, r'.montant < 0 ∧ Bank.large_proj rows r' = x) := by
  intro rows k hk
  refine ⟨?_, ?_, ?_⟩
  · intro r c hr hneg hcat
    constructor
    · intro hmem
      obtain ⟨r', hr', hpr⟩ := List.mem_map.mp hmem
      have hfil := List.mem_filter.mp hr'
      have hdep : Bank.depense r' = Bank.depense r := congrArg Bank.LargeRow.depense hpr
      have hcat' : r'.categorie = some c :=
        (congrArg Bank.LargeRow.categorie hpr).trans hcat
      have hl := hfil.2
      unfold Bank.is_large at hl
      rw [hcat'] at hl
      simp only [Bool.and_eq_true, decide_eq_true_eq] at hl
      rw [hdep] at hl
      exact ⟨(Bank.large_cond_iff (Bank.mean_dep rows c) (Bank.depense r)
          (Bank.var_dep rows c) k hk (Bank.var_dep_nonneg rows c)).mp ⟨hl.1.1, hl.1.2⟩,
        hl.2⟩
    · rintro ⟨hreal, hfloor⟩
      have hcond := (Bank.large_cond_iff (Bank.mean_dep rows c) (Bank.depense r)
        (Bank.var_dep rows c) k hk (Bank.var_dep_nonneg rows c)).mpr hreal
      apply List.mem_map_of_mem
      apply List.mem_filter.mpr
      refine ⟨List.mem_filter.mpr ⟨hr, decide_eq_true hneg⟩, ?_⟩
      unfold Bank.is_large
      rw [hcat]
      simp only [Bool.and_eq_true, decide_eq_true_eq]
      exact ⟨⟨hcond.1, hcond.2⟩, hfloor⟩
  · intro c hcap x hx
    obtain ⟨r', hr', rfl⟩ := List.mem_map.mp hx
    have hfil := List.mem_filter.mp hr'
    have hexp := List.mem_filter.mp hfil.1
    intro hxc
    have hc' : r'.categorie = some c := hxc
    have hl := hfil.2
    unfold Bank.is_large at hl
    rw [hc'] at hl
    simp only [Bool.and_eq_true, decide_eq_true_eq] at hl
    exact absurd hl.2
      (not_lt.mpr (hcap r' hexp.1 (of_decide_eq_true hexp.2) hc'))
  · intro x hx
    obtain ⟨r', hr', rfl⟩ := List.mem_map.mp hx
    have hexp := List.mem_filter.mp (List.mem_filter.mp hr').1
    exact ⟨r', hexp.1, of_decide_eq_true hexp.2, rfl⟩

theorem C6_outlier_characterisation_witness :
    (0 : ℚ) ≤ 2 ∧
    ((⟨"h1", "CARREFOUR", "CARREFOUR", -5, none, some "Courses", "Ponctuel"⟩ : Bank.Row) ∈
      [(⟨"h1", "CARREFOUR", "CARREFOUR", -5, none, some "Courses", "Ponctuel"⟩ : Bank.Row)]) ∧
    (-5 : ℚ) < 0 ∧
    (∀ x ∈ Bank.find_large_purchases
      [(⟨"h1", "CARREFOUR", "CARREFOUR", -5, none, some "Courses", "Ponctuel"⟩ : Bank.Row)] 2,
      x.categorie ≠ some "Courses") :=
  have hrows := C6_outlier_characterisation
    [(⟨"h1", "CARREFOUR", "CARREFOUR", -5, none, some "Courses", "Ponctuel"⟩ : Bank.Row)] 2
    (by norm_num)
  ⟨by norm_num, List.mem_cons_self _ _, by norm_num,
   hrows.2.1 "Courses" (by
     intro r hr hneg hc
     rcases List.mem_cons.mp hr with rfl | hr
     · unfold Bank.depense
       norm_num
     · cases hr)⟩

/-- Claim C8, confirmed.  The fee isolator returns exactly the rows whose
(present) category contains the literal substring `'Frais Bancaires'`:
every such row's projection appears in the output, everything in the output
comes from such a row (rows with an absent category never appear), and in
particular every row the categorizer set to the fee category appears. -/
theorem C8_fee_isolator :
    ∀ rows : List Bank.Row,
      (∀ r ∈ rows, ∀ c : String, r.categorie = some c → Bank.contains_frais c = true →
        Bank.fee_proj r ∈ Bank.find_bank_fees rows) ∧
      (∀ x ∈ Bank.find_bank_fees rows,
        ∃ r ∈ rows, (∃ c : String, r.categorie = some c ∧ Bank.contains_frais c = true) ∧
          Bank.fee_proj r = x) ∧
      (∀ (rules : Bank.Rules) (force : Bool) (rows₀ : List Bank.Row) (r : Bank.Row),
        r ∈ Bank.categorize_transactions rules force rows₀ →
        r.categorie = some "Frais Bancaires" →
        Bank.fee_proj r ∈ Bank.find_bank_fees (Bank.categorize_transactions rules force rows₀)) := by
  have hpart1 : ∀ (rs : List Bank.Row) (r : Bank.Row), r ∈ rs →
      ∀ c : String, r.categorie = some c → Bank.contains_frais c = true →
        Bank.fee_proj r ∈ Bank.find_bank_fees rs := by
    intro rs r hr c hc hf
    apply List.mem_map_of_mem
    apply List.mem_filter.mpr
    refine ⟨hr, ?_⟩
    rw [hc]
    exact hf
  intro rows
  refine ⟨fun r hr c hc hf => hpart1 rows r hr c hc hf, ?_, ?_⟩
  · intro x hx
    obtain ⟨r, hr, rfl⟩ := List.mem_map.mp hx
    have hf := List.mem_filter.mp hr
    refine ⟨r, hf.1, ?_, rfl⟩
    cases hcat : r.categorie with
    | none =>
      have h2 := hf.2
      rw [hcat] at h2
      exact absurd h2 (by decide)
    | some c =>
      have h2 := hf.2
      rw [hcat] at h2
      exact ⟨c, rfl, h2⟩
  · intro rules force rows₀ r hr hc
    exact hpart1 _ r hr "Frais Bancaires" hc (by decide)

theorem C8_fee_isolator_witness :
    ((⟨"h1", "COTISATION", "COTIS", -3, none, some "Frais Bancaires", "Ponctuel"⟩ : Bank.Row) ∈
      [(⟨"h1", "COTISATION", "COTIS", -3, none, some "Frais Bancaires", "Ponctuel"⟩ : Bank.Row)]) ∧
    Bank.contains_frais "Frais Bancaires" = true ∧
    Bank.fee_proj (⟨"h1", "COTISATION", "COTIS", -3, none, some "Frais Bancaires",
        "Ponctuel"⟩ : Bank.Row) ∈
      Bank.find_bank_fees
        [(⟨"h1", "COTISATION", "COTIS", -3, none, some "Frais Bancaires", "Ponctuel"⟩ : Bank.Row)] :=
  ⟨List.mem_cons_self _ _, by decide,
   (C8_fee_isolator
     [⟨"h1", "COTISATION", "COTIS", -3, none, some "Frais Bancaires", "Ponctuel"⟩]).1
     _ (List.mem_cons_self _ _) "Frais Bancaires" rfl (by decide)⟩

end Bank
